import Mathlib

/-!
Verification of the `bytes-pool` library (`src/src/lib.rs`).

`BytesPool` is a thin wrapper around a `bytes::BytesMut` staging buffer.  The
`bytes` crate is an external collaborator of this repository, so the staging
buffer itself (allocations, split/freeze, reference counted views, reclaim) is
modelled from the spec (sections 3, 4.1 and 9) and from the behavioural
documentation in `lib.rs`; the public operations of `BytesPool` are translated
directly from `lib.rs`.

The model keeps every backing allocation ever created in a list `bufs`
(index = generation), so that views handed out in the past can still be read
and compared after the pool moved on.  Machine bytes are `Nat` values and
buffer arithmetic is on `Nat` (the spec makes arithmetic overflow a fatal,
out-of-domain condition, cf. section 7).
-/

set_option maxHeartbeats 1000000

/-- Read the sublist of `l` of length `n` starting at index `lo`
(truncated at the end of `l`). -/
def byteSlice (l : List Nat) (lo n : Nat) : List Nat := (l.drop lo).take n

/-- Overwrite `l` starting at position `i` with the elements of `xs`,
truncating the write at the end of `l`; the length of `l` is preserved. -/
def writeAt (l : List Nat) (i : Nat) (xs : List Nat) : List Nat :=
  l.take i ++ xs.take (l.length - i) ++ l.drop (i + xs.length)

/-- Modelled from the spec: a `bytes::Bytes` handle (spec section 3,
"SharedView") — an immutable window onto a region of a backing allocation,
identified by the allocation's generation, a start offset and a length. -/
structure Bytes where
  gen : Nat
  lo : Nat
  len : Nat
deriving DecidableEq

/-- Modelled from the spec: the state of a `bytes::BytesMut` staging buffer
(spec section 3, "StagingBuffer" plus the "capacity ledger").  `bufs` lists
every backing allocation ever created (index = generation); `gen` is the
current backing allocation; the staged, not yet detached bytes occupy
positions `[off, off+len)` of allocation `gen`; `live` is the ghost multiset
of outstanding detached views, which stands in for the reference count of the
shared allocations. -/
structure BytesMut where
  bufs : List (List Nat)
  gen : Nat
  off : Nat
  len : Nat
  live : List Bytes
deriving DecidableEq

/-- Size of backing allocation `g` of the pool. -/
def BytesMut.allocSize (m : BytesMut) (g : Nat) : Nat := (m.bufs.getD g []).length

/-- The current backing allocation. -/
def BytesMut.buf (m : BytesMut) : List Nat := m.bufs.getD m.gen []

/-- The staged (appended but not yet detached) bytes, i.e. what the Rust
value dereferences to (`BytesMut: Deref<Target = [u8]>`). -/
def BytesMut.staged (m : BytesMut) : List Nat := byteSlice m.buf m.off m.len

/-- Modelled from the spec: `BytesMut::capacity` — how many bytes the handle
can hold without reallocating, i.e. the part of the current allocation from
the handle's start offset to the end of the allocation. -/
def BytesMut.capacity (m : BytesMut) : Nat := m.buf.length - m.off

/-- Number of live detached views that still alias the pool's current backing
allocation (the model of the `bytes` crate's reference count exclusivity
check, spec section 9). -/
def refsOf (m : BytesMut) : Nat := m.live.countP (fun v => v.gen == m.gen)

/-- Modelled from the spec: `BytesMut::with_capacity` pre-allocates a zeroed
backing allocation of exactly the requested size. -/
def BytesMut.with_capacity (n : Nat) : BytesMut :=
  { bufs := [List.replicate n 0], gen := 0, off := 0, len := 0, live := [] }

/-- Modelled from the spec: `BytesMut::new` — an empty handle. -/
def BytesMut.new : BytesMut := BytesMut.with_capacity 0

/-- Modelled from the spec: `BytesMut::reserve` (spec section 4.1).  If the
spare capacity already suffices, nothing happens.  Otherwise, if no live view
aliases the current allocation and the allocation is big enough for
`len + additional`, the staged bytes move to the front of the allocation and
it is reused.  Otherwise a fresh allocation is made, holding at least
`len + additional` bytes and over-allocating geometrically (the exact growth
factor is an implementation choice per the spec; capacity never decreases). -/
def BytesMut.reserve (m : BytesMut) (additional : Nat) : BytesMut :=
  if additional ≤ m.buf.length - m.off - m.len then m
  else if refsOf m = 0 ∧ m.len + additional ≤ m.buf.length then
    { m with bufs := m.bufs.set m.gen (writeAt m.buf 0 m.staged), off := 0 }
  else
    { m with bufs := m.bufs ++
               [writeAt (List.replicate (max (m.len + additional) (2 * m.capacity)) 0) 0 m.staged],
             gen := m.bufs.length, off := 0 }

/-- Modelled from the spec: `BytesMut::extend_from_slice` — reserve room for
the extra bytes, then write them at the current write cursor. -/
def BytesMut.extend_from_slice (m : BytesMut) (bs : List Nat) : BytesMut :=
  let r := m.reserve bs.length
  { r with bufs := r.bufs.set r.gen (writeAt r.buf (r.off + r.len) bs),
           len := r.len + bs.length }

/-- Modelled from the spec: `BytesMut::split` followed by `freeze` — the
staged bytes `[off, off+len)` become a new immutable view (registered in the
ghost `live` list, which models the reference count bump of the shallow
clone), and the pool's window moves past them (`off := off + len, len := 0`),
so later appends never touch the detached region (spec invariant I3). -/
def BytesMut.split_freeze (m : BytesMut) : Bytes × BytesMut :=
  (⟨m.gen, m.off, m.len⟩,
   { m with off := m.off + m.len, len := 0,
            live := m.live ++ [⟨m.gen, m.off, m.len⟩] })

/-- Modelled from the spec: `BytesMut::try_reclaim` (behaviour documented in
`lib.rs`): returns `true` without change if the spare capacity already
suffices; otherwise reclaims the current allocation (staged bytes move to the
front) exactly when no live view aliases it and it is large enough; otherwise
returns `false` making no change. -/
def BytesMut.try_reclaim (m : BytesMut) (additional : Nat) : Bool × BytesMut :=
  if additional ≤ m.buf.length - m.off - m.len then (true, m)
  else if refsOf m = 0 ∧ m.len + additional ≤ m.buf.length then
    (true, { m with bufs := m.bufs.set m.gen (writeAt m.buf 0 m.staged), off := 0 })
  else (false, m)

/-- Modelled from the spec: dropping a detached view releases one reference
(the pool itself has no registry of views; liveness is ghost state). -/
def BytesMut.dropView (m : BytesMut) (v : Bytes) : BytesMut :=
  { m with live := m.live.erase v }

/-- The bytes observed through a detached view: the window it denotes inside
its backing allocation. -/
def readBytes (m : BytesMut) (v : Bytes) : List Nat :=
  byteSlice (m.bufs.getD v.gen []) v.lo v.len

/-- The pool from `src/src/lib.rs`: a wrapper around a `BytesMut` buffer. -/
structure BytesPool where
  inner : BytesMut
deriving DecidableEq

/-- Creates a new `BytesPool` with default capacity (`lib.rs` line 35). -/
def BytesPool.new : BytesPool := { inner := BytesMut.new }

/-- Creates a new `BytesPool` with the specified capacity (`lib.rs` line 54). -/
def BytesPool.with_capacity (capacity : Nat) : BytesPool :=
  { inner := BytesMut.with_capacity capacity }

/-- Number of bytes the pool can hold without reallocating (`lib.rs` line 71). -/
def BytesPool.capacity (p : BytesPool) : Nat := p.inner.capacity

/-- Creates an immutable shared slice of bytes (`lib.rs` line 92):
`self.inner.extend_from_slice(bytes); self.inner.split().freeze()`. -/
def BytesPool.share_bytes (p : BytesPool) (bytes : List Nat) : Bytes × BytesPool :=
  let r := (p.inner.extend_from_slice bytes).split_freeze
  (r.1, { inner := r.2 })

/-- Modelled from the spec: the external string-wrapping layer's `ByteString`
— a string-typed handle around a byte view. -/
structure ByteString where
  toBytes : Bytes
deriving DecidableEq

/-- Modelled from the spec: `ByteString::from_bytes_unchecked` wraps a byte
view as a string without any UTF-8 validation scan (spec section 4.1). -/
def ByteString.from_bytes_unchecked (b : Bytes) : ByteString := { toBytes := b }

/-- The UTF-8 encoding of a string, as a list of byte values. -/
def utf8Bytes (s : String) : List Nat :=
  (s.data.flatMap String.utf8EncodeChar).map UInt8.toNat

/-- Creates an immutable shared string (`lib.rs` line 114): delegates the
byte handling to `share_bytes` on the UTF-8 bytes of `s`, then wraps the
resulting view unchecked. -/
def BytesPool.share_str (p : BytesPool) (s : String) : ByteString × BytesPool :=
  let r := p.share_bytes (utf8Bytes s)
  (ByteString.from_bytes_unchecked r.1, r.2)

/-- Reserves capacity for at least `additional` bytes (`lib.rs` line 147). -/
def BytesPool.reserve (p : BytesPool) (additional : Nat) : BytesPool :=
  { inner := p.inner.reserve additional }

/-- Attempts to cheaply reclaim already allocated capacity (`lib.rs`
line 187). -/
def BytesPool.try_reclaim (p : BytesPool) (additional : Nat) : Bool × BytesPool :=
  let r := p.inner.try_reclaim additional
  (r.1, { inner := r.2 })

/-- Dropping a view, lifted to the pool state (ghost operation). -/
def BytesPool.dropView (p : BytesPool) (v : Bytes) : BytesPool :=
  { inner := p.inner.dropView v }

/-- The public operations on a pool (plus the ambient drop of a view), used
to quantify over arbitrary usage of the pool. -/
inductive Op where
  | shareBytes (bs : List Nat)
  | shareStr (s : String)
  | reserveOp (n : Nat)
  | tryReclaimOp (n : Nat)
  | dropViewOp (v : Bytes)
deriving DecidableEq

/-- One public operation acting on the pool state. -/
def step (op : Op) (p : BytesPool) : BytesPool :=
  match op with
  | .shareBytes bs => (p.share_bytes bs).2
  | .shareStr s => (p.share_str s).2
  | .reserveOp n => p.reserve n
  | .tryReclaimOp n => (p.try_reclaim n).2
  | .dropViewOp v => p.dropView v

/-- A sequence of public operations acting on the pool state. -/
def steps (ops : List Op) (p : BytesPool) : BytesPool :=
  ops.foldl (fun q o => step o q) p

/-- Well-formedness of a staging buffer state: the current generation exists,
the staged window lies inside the current allocation, every live view points
at an existing allocation, and every live view of the current allocation lies
entirely before the pool's window (spec invariant I3). -/
def PoolInv (m : BytesMut) : Prop :=
  m.gen < m.bufs.length ∧
  m.off + m.len ≤ m.buf.length ∧
  (∀ v ∈ m.live, v.gen < m.bufs.length) ∧
  (∀ v ∈ m.live, v.gen = m.gen → v.lo + v.len ≤ m.off)

instance (m : BytesMut) : Decidable (PoolInv m) := by
  unfold PoolInv
  exact inferInstance

/-- Pool states reachable through the public interface. -/
inductive Reachable : BytesPool → Prop where
  | new : Reachable BytesPool.new
  | withCap (n : Nat) : Reachable (BytesPool.with_capacity n)
  | act (op : Op) {p : BytesPool} : Reachable p → Reachable (step op p)

/-! ## List-level helper lemmas -/

theorem length_writeAt (l : List Nat) (i : Nat) (xs : List Nat) :
    (writeAt l i xs).length = l.length := by
  simp only [writeAt, List.length_append, List.length_take, List.length_drop]
  omega

theorem writeAt_nil (l : List Nat) (i : Nat) : writeAt l i [] = l := by
  simp [writeAt]

theorem byteSlice_zero (l : List Nat) (lo : Nat) : byteSlice l lo 0 = [] := by
  simp [byteSlice]

theorem byteSlice_eq_drop_take (l : List Nat) (lo n : Nat) :
    byteSlice l lo n = (l.take (lo + n)).drop lo := by
  unfold byteSlice
  rw [List.drop_take]
  congr 1
  omega

theorem byteSlice_writeAt_self (l : List Nat) (i : Nat) (xs : List Nat)
    (h : i + xs.length ≤ l.length) :
    byteSlice (writeAt l i xs) i xs.length = xs := by
  have h1 : (List.take i l).length = i := by rw [List.length_take]; omega
  have hx : xs.take (l.length - i) = xs := List.take_of_length_le (by omega)
  have hd : List.drop i (List.take i l ++ (xs ++ List.drop (i + xs.length) l))
      = xs ++ List.drop (i + xs.length) l := List.drop_left' h1
  have ht : List.take xs.length (xs ++ List.drop (i + xs.length) l) = xs :=
    List.take_left' rfl
  unfold writeAt byteSlice
  rw [hx, List.append_assoc, hd, ht]

theorem byteSlice_writeAt_before (l : List Nat) (i : Nat) (xs : List Nat)
    (lo n : Nat) (h : lo + n ≤ i) (hl : lo + n ≤ l.length) :
    byteSlice (writeAt l i xs) lo n = byteSlice l lo n := by
  have key : (writeAt l i xs).take (lo + n) = l.take (lo + n) := by
    unfold writeAt
    rw [List.take_append_eq_append_take, List.take_append_eq_append_take]
    have h1 : lo + n - (List.take i l).length = 0 := by
      rw [List.length_take]
      omega
    rw [h1, List.take_take]
    have h2 : min (lo + n) i = lo + n := by omega
    rw [h2]
    have h4 : lo + n - (List.take i l ++ List.take (l.length - i) xs).length = 0 := by
      simp only [List.length_append, List.length_take]
      omega
    rw [h4]
    simp
  rw [byteSlice_eq_drop_take, byteSlice_eq_drop_take, key]

theorem getD_set_self {α : Type} (l : List α) (i : Nat) (x d : α)
    (h : i < l.length) : (l.set i x).getD i d = x := by
  induction l generalizing i with
  | nil => simp at h
  | cons a t ih =>
    cases i with
    | zero => rfl
    | succ j =>
      simp only [List.set_cons_succ, List.getD_cons_succ]
      exact ih j (by simpa using h)

theorem getD_set_ne {α : Type} (l : List α) (i j : Nat) (x d : α)
    (h : i ≠ j) : (l.set i x).getD j d = l.getD j d := by
  induction l generalizing i j with
  | nil => rfl
  | cons a t ih =>
    cases i with
    | zero =>
      cases j with
      | zero => exact absurd rfl h
      | succ k => rfl
    | succ i2 =>
      cases j with
      | zero => rfl
      | succ k =>
        simp only [List.set_cons_succ, List.getD_cons_succ]
        exact ih i2 k (by omega)

theorem getD_append_left {α : Type} (l l2 : List α) (i : Nat) (d : α)
    (h : i < l.length) : (l ++ l2).getD i d = l.getD i d := by
  induction l generalizing i with
  | nil => simp at h
  | cons a t ih =>
    cases i with
    | zero => rfl
    | succ j =>
      simp only [List.cons_append, List.getD_cons_succ]
      exact ih j (by simpa using h)

theorem getD_append_self {α : Type} (l : List α) (x d : α) :
    (l ++ [x]).getD l.length d = x := by
  induction l with
  | nil => rfl
  | cons a t ih =>
    simp only [List.cons_append, List.length_cons, List.getD_cons_succ]
    exact ih

theorem getD_of_le {α : Type} (l : List α) (i : Nat) (d : α)
    (h : l.length ≤ i) : l.getD i d = d := by
  induction l generalizing i with
  | nil => cases i <;> rfl
  | cons a t ih =>
    cases i with
    | zero => simp at h
    | succ j =>
      simp only [List.getD_cons_succ]
      exact ih j (by simpa using h)

/-! ## Lemmas about `reserve` -/

theorem buf_pos_gen_lt (m : BytesMut) (h : 0 < m.buf.length) :
    m.gen < m.bufs.length := by
  by_contra hc
  push_neg at hc
  have hb : m.buf = [] := getD_of_le _ _ _ hc
  rw [hb] at h
  simp at h

theorem refsOf_pos_of_mem (m : BytesMut) (v : Bytes) (hv : v ∈ m.live)
    (hg : v.gen = m.gen) : refsOf m ≠ 0 := by
  unfold refsOf
  have hpos : 0 < m.live.countP (fun u => u.gen == m.gen) :=
    List.countP_pos_iff.mpr ⟨v, hv, by simp [hg]⟩
  omega

theorem reserve_len (m : BytesMut) (a : Nat) : (m.reserve a).len = m.len := by
  unfold BytesMut.reserve
  split_ifs <;> rfl

theorem reserve_live (m : BytesMut) (a : Nat) : (m.reserve a).live = m.live := by
  unfold BytesMut.reserve
  split_ifs <;> rfl

theorem inv_reserve (m : BytesMut) (a : Nat) (h : PoolInv m) :
    PoolInv (m.reserve a) := by
  obtain ⟨hg, hw, hvg, hvf⟩ := h
  unfold BytesMut.buf at hw
  unfold BytesMut.reserve
  split_ifs with h1 h2
  · exact ⟨hg, hw, hvg, hvf⟩
  · refine ⟨by simpa using hg, ?_, by simpa using hvg, ?_⟩
    · show 0 + m.len ≤ (BytesMut.buf _).length
      unfold BytesMut.buf
      dsimp only
      rw [getD_set_self _ _ _ _ hg, length_writeAt]
      omega
    · intro v hv hvgen
      exact absurd (refsOf_pos_of_mem m v hv hvgen) (by simpa using h2.1)
  · refine ⟨?_, ?_, ?_, ?_⟩
    · simp
    · show 0 + m.len ≤ (BytesMut.buf _).length
      unfold BytesMut.buf
      dsimp only
      rw [getD_append_self, length_writeAt, List.length_replicate]
      have hmax := le_max_left (m.len + a) (2 * m.capacity)
      omega
    · intro v hv
      have := hvg v hv
      simp only [List.length_append, List.length_cons, List.length_nil]
      omega
    · intro v hv hvgen
      have := hvg v hv
      dsimp only at hvgen
      omega

theorem reserve_room (m : BytesMut) (a : Nat) (h : PoolInv m) :
    (m.reserve a).off + (m.reserve a).len + a ≤ (m.reserve a).buf.length := by
  obtain ⟨hg, hw, hvg, hvf⟩ := h
  unfold BytesMut.reserve
  split_ifs with h1 h2
  · unfold BytesMut.buf at hw h1 ⊢
    omega
  · unfold BytesMut.buf at h2
    show 0 + m.len + a ≤ (BytesMut.buf _).length
    unfold BytesMut.buf
    dsimp only
    rw [getD_set_self _ _ _ _ hg, length_writeAt]
    omega
  · show 0 + m.len + a ≤ (BytesMut.buf _).length
    unfold BytesMut.buf
    dsimp only
    rw [getD_append_self, length_writeAt, List.length_replicate]
    have hmax := le_max_left (m.len + a) (2 * m.capacity)
    omega

theorem reserve_read (m : BytesMut) (a : Nat) (v : Bytes) (h : PoolInv m)
    (hv : v ∈ m.live) : readBytes (m.reserve a) v = readBytes m v := by
  obtain ⟨hg, hw, hvg, hvf⟩ := h
  unfold BytesMut.reserve
  split_ifs with h1 h2
  · rfl
  · have hne : v.gen ≠ m.gen := by
      intro hcontra
      exact absurd (refsOf_pos_of_mem m v hv hcontra) (by simpa using h2.1)
    unfold readBytes
    dsimp only
    rw [getD_set_ne _ _ _ _ _ (fun he => hne he.symm)]
  · unfold readBytes
    dsimp only
    rw [getD_append_left _ _ _ _ (hvg v hv)]

theorem reserve_capacity (m : BytesMut) (a : Nat) :
    m.capacity ≤ (m.reserve a).capacity ∧ a ≤ (m.reserve a).capacity := by
  unfold BytesMut.reserve
  split_ifs with h1 h2
  · unfold BytesMut.capacity BytesMut.buf at h1 ⊢
    omega
  · obtain ⟨hr, h2b⟩ := h2
    unfold BytesMut.buf at h1 h2b
    unfold BytesMut.capacity BytesMut.buf
    dsimp only
    by_cases hg : m.gen < m.bufs.length
    · rw [getD_set_self _ _ _ _ hg, length_writeAt]
      omega
    · push_neg at hg
      have hb : m.bufs.getD m.gen ([] : List Nat) = [] := getD_of_le _ _ _ hg
      rw [hb] at h1 h2b
      simp only [List.length_nil] at h1 h2b
      omega
  · unfold BytesMut.capacity BytesMut.buf at h1 ⊢
    dsimp only
    rw [getD_append_self, length_writeAt, List.length_replicate]
    have hmax1 := le_max_left (m.len + a) (2 * ((m.bufs.getD m.gen []).length - m.off))
    have hmax2 := le_max_right (m.len + a) (2 * ((m.bufs.getD m.gen []).length - m.off))
    omega

/-! ## Lemmas about append-and-detach (`extend_from_slice` + `split` + `freeze`) -/

theorem extend_split_len (m : BytesMut) (bs : List Nat) :
    (m.extend_from_slice bs).split_freeze.2.len = 0 := rfl

theorem extend_split_view_len (m : BytesMut) (bs : List Nat) :
    (m.extend_from_slice bs).split_freeze.1.len = m.len + bs.length := by
  show (m.reserve bs.length).len + bs.length = m.len + bs.length
  rw [reserve_len]

theorem extend_split_read (m : BytesMut) (bs : List Nat) (h : PoolInv m)
    (hlen : m.len = 0) :
    readBytes (m.extend_from_slice bs).split_freeze.2
      (m.extend_from_slice bs).split_freeze.1 = bs := by
  have hroom := reserve_room m bs.length h
  have hrlen : (m.reserve bs.length).len = 0 := by rw [reserve_len]; exact hlen
  obtain ⟨hg, hw, hvg, hvf⟩ := inv_reserve m bs.length h
  unfold BytesMut.extend_from_slice BytesMut.split_freeze readBytes
  dsimp only
  rw [getD_set_self _ _ _ _ hg, hrlen]
  simp only [Nat.add_zero, Nat.zero_add]
  apply byteSlice_writeAt_self
  rw [hrlen] at hroom
  omega

theorem extend_split_read_preserve (m : BytesMut) (bs : List Nat) (v : Bytes)
    (h : PoolInv m) (hv : v ∈ m.live) :
    readBytes (m.extend_from_slice bs).split_freeze.2 v = readBytes m v := by
  have hrr := reserve_read m bs.length v h hv
  obtain ⟨hg, hw, hvg, hvf⟩ := inv_reserve m bs.length h
  rw [← hrr]
  unfold BytesMut.extend_from_slice BytesMut.split_freeze readBytes
  dsimp only
  by_cases hvgen : v.gen = (m.reserve bs.length).gen
  · have hvfr : v.lo + v.len ≤ (m.reserve bs.length).off := by
      apply hvf v ?_ hvgen
      rw [reserve_live]
      exact hv
    rw [hvgen, getD_set_self _ _ _ _ hg]
    unfold BytesMut.buf at hw ⊢
    apply byteSlice_writeAt_before
    · omega
    · omega
  · rw [getD_set_ne _ _ _ _ _ (fun he => hvgen he.symm)]

theorem inv_extend_split (m : BytesMut) (bs : List Nat) (h : PoolInv m) :
    PoolInv (m.extend_from_slice bs).split_freeze.2 := by
  have hroom := reserve_room m bs.length h
  obtain ⟨hg, hw, hvg, hvf⟩ := inv_reserve m bs.length h
  unfold BytesMut.extend_from_slice BytesMut.split_freeze
  dsimp only
  refine ⟨by simpa using hg, ?_, ?_, ?_⟩
  · show (m.reserve bs.length).off + ((m.reserve bs.length).len + bs.length) + 0 ≤
      (BytesMut.buf _).length
    unfold BytesMut.buf at hroom ⊢
    dsimp only
    rw [getD_set_self _ _ _ _ hg, length_writeAt]
    omega
  · intro v hv
    simp only [List.length_set]
    rcases List.mem_append.mp hv with hvo | hvn
    · exact hvg v hvo
    · simp only [List.mem_singleton] at hvn
      subst hvn
      exact hg
  · intro v hv hvgen
    dsimp only at hvgen
    rcases List.mem_append.mp hv with hvo | hvn
    · have := hvf v hvo hvgen
      dsimp only
      omega
    · simp only [List.mem_singleton] at hvn
      subst hvn
      dsimp only
      omega

theorem share_empty_capacity (m : BytesMut) (h : PoolInv m) (hlen : m.len = 0) :
    (m.extend_from_slice []).split_freeze.2.capacity = m.capacity := by
  obtain ⟨hg, hw, hvg, hvf⟩ := h
  have hres0 : m.reserve 0 = m := by
    unfold BytesMut.reserve
    rw [if_pos (Nat.zero_le _)]
  unfold BytesMut.extend_from_slice BytesMut.split_freeze
  dsimp only [List.length_nil]
  rw [hres0]
  unfold BytesMut.capacity BytesMut.buf
  dsimp only
  rw [writeAt_nil, getD_set_self _ _ _ _ hg, hlen]
  simp

/-! ## Lemmas about `try_reclaim` and `dropView` -/

theorem try_reclaim_false_id (m : BytesMut) (a : Nat)
    (h : (m.try_reclaim a).1 = false) : (m.try_reclaim a).2 = m := by
  unfold BytesMut.try_reclaim at h ⊢
  split_ifs at h ⊢
  rfl

theorem try_reclaim_true_of_spare (m : BytesMut) (a : Nat)
    (hle : a ≤ m.buf.length - m.off - m.len) :
    m.try_reclaim a = (true, m) := by
  unfold BytesMut.try_reclaim
  rw [if_pos hle]

theorem try_reclaim_spec_live (m : BytesMut) (a : Nat) (hr : refsOf m ≠ 0) :
    ((m.try_reclaim a).1 = true ↔ a ≤ m.buf.length - m.off - m.len) ∧
      (m.try_reclaim a).2 = m := by
  unfold BytesMut.try_reclaim
  split_ifs with h1 h2
  · exact ⟨by simp [h1], rfl⟩
  · exact absurd h2.1 hr
  · exact ⟨by simp [h1], rfl⟩

theorem try_reclaim_true_of_unique (m : BytesMut) (a : Nat) (hr : refsOf m = 0)
    (hsz : m.len + a ≤ m.buf.length) : (m.try_reclaim a).1 = true := by
  unfold BytesMut.try_reclaim
  split_ifs with h1 h2
  · rfl
  · rfl
  · exact absurd ⟨hr, hsz⟩ h2

theorem try_reclaim_len (m : BytesMut) (a : Nat) :
    (m.try_reclaim a).2.len = m.len := by
  unfold BytesMut.try_reclaim
  split_ifs <;> rfl

theorem try_reclaim_live (m : BytesMut) (a : Nat) :
    (m.try_reclaim a).2.live = m.live := by
  unfold BytesMut.try_reclaim
  split_ifs <;> rfl

theorem inv_try_reclaim (m : BytesMut) (a : Nat) (h : PoolInv m) :
    PoolInv (m.try_reclaim a).2 := by
  obtain ⟨hg, hw, hvg, hvf⟩ := h
  unfold BytesMut.buf at hw
  unfold BytesMut.try_reclaim
  split_ifs with h1 h2
  · exact ⟨hg, hw, hvg, hvf⟩
  · refine ⟨by simpa using hg, ?_, by simpa using hvg, ?_⟩
    · show 0 + m.len ≤ (BytesMut.buf _).length
      unfold BytesMut.buf
      dsimp only
      rw [getD_set_self _ _ _ _ hg, length_writeAt]
      omega
    · intro v hv hvgen
      exact absurd (refsOf_pos_of_mem m v hv hvgen) (by simpa using h2.1)
  · exact ⟨hg, hw, hvg, hvf⟩

theorem try_reclaim_read (m : BytesMut) (a : Nat) (v : Bytes) (h : PoolInv m)
    (hv : v ∈ m.live) : readBytes (m.try_reclaim a).2 v = readBytes m v := by
  obtain ⟨hg, hw, hvg, hvf⟩ := h
  unfold BytesMut.try_reclaim
  split_ifs with h1 h2
  · rfl
  · have hne : v.gen ≠ m.gen := fun hc =>
      absurd (refsOf_pos_of_mem m v hv hc) (by simpa using h2.1)
    unfold readBytes
    dsimp only
    rw [getD_set_ne _ _ _ _ _ (fun he => hne he.symm)]
  · rfl

theorem inv_dropView (m : BytesMut) (u : Bytes) (h : PoolInv m) :
    PoolInv (m.dropView u) := by
  obtain ⟨hg, hw, hvg, hvf⟩ := h
  refine ⟨hg, hw, ?_, ?_⟩
  · intro v hv
    exact hvg v (List.mem_of_mem_erase hv)
  · intro v hv hvgen
    exact hvf v (List.mem_of_mem_erase hv) hvgen

theorem dropView_read (m : BytesMut) (u v : Bytes) :
    readBytes (m.dropView u) v = readBytes m v := rfl

/-! ## Step-level lemmas -/

theorem inv_step (op : Op) (p : BytesPool) (h : PoolInv p.inner) :
    PoolInv (step op p).inner := by
  cases op with
  | shareBytes bs => exact inv_extend_split p.inner bs h
  | shareStr s => exact inv_extend_split p.inner (utf8Bytes s) h
  | reserveOp n => exact inv_reserve p.inner n h
  | tryReclaimOp n => exact inv_try_reclaim p.inner n h
  | dropViewOp v => exact inv_dropView p.inner v h

theorem read_step (op : Op) (p : BytesPool) (v : Bytes) (h : PoolInv p.inner)
    (hv : v ∈ p.inner.live) :
    readBytes (step op p).inner v = readBytes p.inner v := by
  cases op with
  | shareBytes bs => exact extend_split_read_preserve p.inner bs v h hv
  | shareStr s => exact extend_split_read_preserve p.inner (utf8Bytes s) v h hv
  | reserveOp n => exact reserve_read p.inner n v h hv
  | tryReclaimOp n => exact try_reclaim_read p.inner n v h hv
  | dropViewOp u => rfl

theorem live_step (op : Op) (p : BytesPool) (v : Bytes) (hv : v ∈ p.inner.live)
    (hop : ∀ u : Bytes, op = Op.dropViewOp u → u ≠ v) :
    v ∈ (step op p).inner.live := by
  cases op with
  | shareBytes bs =>
    have hv2 : v ∈ (p.inner.reserve bs.length).live := by
      rw [reserve_live]
      exact hv
    exact List.mem_append_left _ hv2
  | shareStr s =>
    have hv2 : v ∈ (p.inner.reserve (utf8Bytes s).length).live := by
      rw [reserve_live]
      exact hv
    exact List.mem_append_left _ hv2
  | reserveOp n =>
    show v ∈ (p.inner.reserve n).live
    rw [reserve_live]
    exact hv
  | tryReclaimOp n =>
    show v ∈ (p.inner.try_reclaim n).2.live
    rw [try_reclaim_live]
    exact hv
  | dropViewOp u =>
    exact (List.mem_erase_of_ne (Ne.symm (hop u rfl))).mpr hv

theorem len_step (op : Op) (p : BytesPool) (h : p.inner.len = 0) :
    (step op p).inner.len = 0 := by
  cases op with
  | shareBytes bs => rfl
  | shareStr s => rfl
  | reserveOp n => exact (reserve_len p.inner n).trans h
  | tryReclaimOp n => exact (try_reclaim_len p.inner n).trans h
  | dropViewOp v => exact h

theorem inv_steps (ops : List Op) (p : BytesPool) (h : PoolInv p.inner) :
    PoolInv (steps ops p).inner := by
  induction ops generalizing p with
  | nil => exact h
  | cons o t ih => exact ih (step o p) (inv_step o p h)

theorem read_steps (ops : List Op) (p : BytesPool) (v : Bytes)
    (h : PoolInv p.inner) (hv : v ∈ p.inner.live)
    (hops : ∀ u : Bytes, Op.dropViewOp u ∈ ops → u ≠ v) :
    readBytes (steps ops p).inner v = readBytes p.inner v := by
  induction ops generalizing p with
  | nil => rfl
  | cons o t ih =>
    have h1 : PoolInv (step o p).inner := inv_step o p h
    have hv1 : v ∈ (step o p).inner.live :=
      live_step o p v hv (fun u he => hops u (by rw [← he]; exact List.mem_cons_self o t))
    have hops1 : ∀ u : Bytes, Op.dropViewOp u ∈ t → u ≠ v :=
      fun u hu => hops u (List.mem_cons_of_mem _ hu)
    calc readBytes (steps (o :: t) p).inner v
        = readBytes (steps t (step o p)).inner v := rfl
      _ = readBytes (step o p).inner v := ih (step o p) h1 hv1 hops1
      _ = readBytes p.inner v := read_step o p v h hv

/-! ## Reachability -/

theorem inv_with_capacity (n : Nat) : PoolInv (BytesMut.with_capacity n) := by
  refine ⟨by simp [BytesMut.with_capacity], ?_, ?_, ?_⟩
  · show 0 + 0 ≤ (BytesMut.buf _).length
    simp [BytesMut.buf, BytesMut.with_capacity]
  · intro v hv
    simp [BytesMut.with_capacity] at hv
  · intro v hv
    simp [BytesMut.with_capacity] at hv

theorem reachable_inv (p : BytesPool) (h : Reachable p) : PoolInv p.inner := by
  induction h with
  | new => exact inv_with_capacity 0
  | withCap n => exact inv_with_capacity n
  | act op hp ih => exact inv_step op _ ih

theorem reachable_len (p : BytesPool) (h : Reachable p) : p.inner.len = 0 := by
  induction h with
  | new => rfl
  | withCap n => rfl
  | act op hp ih => exact len_step op _ ih

/-! ## Claim theorems -/

/-- C1: for every byte slice `d` (of any length) and every pool state that is
well formed with an empty staging buffer — which is every state reachable
through the public interface, cf. `reachable_inv` and `reachable_len` —
`share_bytes d` returns a view whose byte content equals `d` exactly, byte
for byte and with the same length. -/
theorem share_bytes_roundtrip (p : BytesPool) (d : List Nat)
    (h : PoolInv p.inner) (hlen : p.inner.len = 0) :
    readBytes (p.share_bytes d).2.inner (p.share_bytes d).1 = d ∧
      (p.share_bytes d).1.len = d.length := by
  constructor
  · exact extend_split_read p.inner d h hlen
  · calc (p.share_bytes d).1.len
        = p.inner.len + d.length := extend_split_view_len p.inner d
      _ = d.length := by rw [hlen]; omega

/-- Witness for C1 at a concrete input. -/
theorem share_bytes_roundtrip_witness :
    PoolInv (BytesPool.with_capacity 4).inner ∧
      readBytes ((BytesPool.with_capacity 4).share_bytes [1, 2, 3]).2.inner
        ((BytesPool.with_capacity 4).share_bytes [1, 2, 3]).1 = [1, 2, 3] :=
  ⟨by decide, (share_bytes_roundtrip (BytesPool.with_capacity 4) [1, 2, 3]
      (by decide) (by decide)).1⟩

/-- C2 counterexample to the claim as stated.  First part: in the spec's own
scenario state (capacity-64 pool that shared "abcd"), a view of the current
backing allocation is live (`refsOf ≠ 0`), yet `try_reclaim 60` returns
true — refuting "returns false for every n".  Second part: a pool that
abandoned its original 64-byte allocation (60 bytes shared, then a 5-byte
append forced a fresh smaller allocation) has released all views
(`live = []`), yet `try_reclaim 64` returns false although 64 is the
capacity that was observed before any detach. -/
theorem try_reclaim_exclusivity_counterexample :
    (refsOf ((BytesPool.with_capacity 64).share_bytes [97, 98, 99, 100]).2.inner ≠ 0 ∧
      ((((BytesPool.with_capacity 64).share_bytes [97, 98, 99, 100]).2).try_reclaim 60).1
        = true) ∧
    ((BytesPool.with_capacity 64).capacity = 64 ∧
      (steps [Op.shareBytes (List.replicate 60 7), Op.shareBytes (List.replicate 5 9),
          Op.dropViewOp ⟨1, 0, 5⟩, Op.dropViewOp ⟨0, 0, 60⟩]
        (BytesPool.with_capacity 64)).inner.live = [] ∧
      ((steps [Op.shareBytes (List.replicate 60 7), Op.shareBytes (List.replicate 5 9),
          Op.dropViewOp ⟨1, 0, 5⟩, Op.dropViewOp ⟨0, 0, 60⟩]
        (BytesPool.with_capacity 64)).try_reclaim 64).1 = false) := by
  decide

/-- C2 (amended): whenever `try_reclaim` returns false it makes no change to
the pool.  While at least one view of the pool's current backing allocation
is live, `try_reclaim n` succeeds exactly when `n` is at most the spare
capacity, and in either case leaves the pool — hence `capacity` — unchanged.
Once no view of the current backing allocation is live, `try_reclaim n`
returns true for every `n` at most the size of the current backing
allocation (for a pool that never abandoned its original allocation this is
the capacity observed before any detach). -/
theorem try_reclaim_exclusivity (p : BytesPool) (n : Nat)
    (hlen : p.inner.len = 0) :
    ((p.try_reclaim n).1 = false → (p.try_reclaim n).2 = p) ∧
      (refsOf p.inner ≠ 0 →
        ((p.try_reclaim n).1 = true ↔ n ≤ p.capacity) ∧ (p.try_reclaim n).2 = p) ∧
      (refsOf p.inner = 0 → n ≤ p.inner.buf.length →
        (p.try_reclaim n).1 = true) := by
  refine ⟨?_, ?_, ?_⟩
  · intro hf
    show ({ inner := (p.inner.try_reclaim n).2 } : BytesPool) = p
    rw [try_reclaim_false_id p.inner n hf]
  · intro hr
    obtain ⟨hiff, hid⟩ := try_reclaim_spec_live p.inner n hr
    constructor
    · show (p.inner.try_reclaim n).1 = true ↔ n ≤ p.inner.capacity
      rw [hiff]
      unfold BytesMut.capacity
      omega
    · show ({ inner := (p.inner.try_reclaim n).2 } : BytesPool) = p
      rw [hid]
  · intro hr hsz
    exact try_reclaim_true_of_unique p.inner n hr (by omega)

/-- Witness for the amended C2 at a concrete input. -/
theorem try_reclaim_exclusivity_witness :
    ((BytesPool.with_capacity 8).share_bytes [1, 2]).2.inner.len = 0 ∧
      (refsOf ((BytesPool.with_capacity 8).share_bytes [1, 2]).2.inner ≠ 0 →
        ((((BytesPool.with_capacity 8).share_bytes [1, 2]).2.try_reclaim 3).1 = true ↔
          3 ≤ ((BytesPool.with_capacity 8).share_bytes [1, 2]).2.capacity) ∧
        (((BytesPool.with_capacity 8).share_bytes [1, 2]).2.try_reclaim 3).2 =
          ((BytesPool.with_capacity 8).share_bytes [1, 2]).2) :=
  ⟨by decide,
   (try_reclaim_exclusivity ((BytesPool.with_capacity 8).share_bytes [1, 2]).2 3
      (by decide)).2.1⟩

/-- C3: the concrete scenario of the spec (also the `lib.rs` doc test):
creating with capacity hint 64 yields capacity 64; append+detach of "abcd"
returns a view reading back as "abcd" and leaves capacity 60;
`try_reclaim 64` then returns false and capacity stays 60; after the view is
dropped `try_reclaim 64` returns true and capacity is 64. -/
theorem scenario_trace :
    (BytesPool.with_capacity 64).capacity = 64 ∧
    readBytes ((BytesPool.with_capacity 64).share_bytes [97, 98, 99, 100]).2.inner
      ((BytesPool.with_capacity 64).share_bytes [97, 98, 99, 100]).1
      = [97, 98, 99, 100] ∧
    ((BytesPool.with_capacity 64).share_bytes [97, 98, 99, 100]).2.capacity = 60 ∧
    (((BytesPool.with_capacity 64).share_bytes [97, 98, 99, 100]).2.try_reclaim 64).1
      = false ∧
    (((BytesPool.with_capacity 64).share_bytes [97, 98, 99, 100]).2.try_reclaim
      64).2.capacity = 60 ∧
    (((((BytesPool.with_capacity 64).share_bytes [97, 98, 99, 100]).2.try_reclaim
        64).2.dropView
        ((BytesPool.with_capacity 64).share_bytes [97, 98, 99, 100]).1).try_reclaim
        64).1 = true ∧
    (((((BytesPool.with_capacity 64).share_bytes [97, 98, 99, 100]).2.try_reclaim
        64).2.dropView
        ((BytesPool.with_capacity 64).share_bytes [97, 98, 99, 100]).1).try_reclaim
        64).2.capacity = 64 := by
  decide

/-- C4: `reserve n` never decreases `capacity`, and immediately afterwards
`capacity` is at least `n`.  The model computes over `Nat`, so the claim's
"absent overflow" proviso holds for the whole domain. -/
theorem reserve_capacity_monotone (p : BytesPool) (n : Nat) :
    p.capacity ≤ (p.reserve n).capacity ∧ n ≤ (p.reserve n).capacity :=
  reserve_capacity p.inner n

/-- C5: a pool built with capacity hint `n` immediately reports
`capacity ≥ n`, and appending (with detach) at most `n` bytes requires no
new backing allocation: the list of allocations ever made does not grow. -/
theorem with_capacity_at_least (n : Nat) :
    n ≤ (BytesPool.with_capacity n).capacity ∧
      ∀ d : List Nat, d.length ≤ n →
        ((BytesPool.with_capacity n).share_bytes d).2.inner.bufs.length =
          (BytesPool.with_capacity n).inner.bufs.length := by
  constructor
  · show n ≤ (BytesMut.with_capacity n).capacity
    unfold BytesMut.capacity BytesMut.buf BytesMut.with_capacity
    simp
  · intro d hd
    have hcond : d.length ≤ (BytesMut.with_capacity n).buf.length -
        (BytesMut.with_capacity n).off - (BytesMut.with_capacity n).len := by
      unfold BytesMut.buf BytesMut.with_capacity
      simpa using hd
    have hres : (BytesMut.with_capacity n).reserve d.length =
        BytesMut.with_capacity n := by
      unfold BytesMut.reserve
      rw [if_pos hcond]
    show ((BytesMut.with_capacity n).extend_from_slice d).split_freeze.2.bufs.length =
      (BytesMut.with_capacity n).bufs.length
    unfold BytesMut.extend_from_slice BytesMut.split_freeze
    dsimp only
    rw [hres]
    simp [List.length_set]

/-- Witness for C5 at a concrete input. -/
theorem with_capacity_at_least_witness :
    2 ≤ (BytesPool.with_capacity 2).capacity ∧
      ((BytesPool.with_capacity 2).share_bytes [9]).2.inner.bufs.length =
        (BytesPool.with_capacity 2).inner.bufs.length :=
  ⟨(with_capacity_at_least 2).1, (with_capacity_at_least 2).2 [9] (by decide)⟩

/-- C6: appending and detaching the empty byte slice succeeds, returns a
valid zero-length view (it reads back as the empty byte string), and leaves
`capacity` unchanged, on every well-formed pool state with empty staging
buffer (every reachable state). -/
theorem share_empty (p : BytesPool) (h : PoolInv p.inner)
    (hlen : p.inner.len = 0) :
    (p.share_bytes []).1.len = 0 ∧
      readBytes (p.share_bytes []).2.inner (p.share_bytes []).1 = [] ∧
      (p.share_bytes []).2.capacity = p.capacity := by
  refine ⟨?_, ?_, ?_⟩
  · calc (p.share_bytes []).1.len
        = p.inner.len + ([] : List Nat).length := extend_split_view_len p.inner []
      _ = 0 := by rw [hlen]; rfl
  · exact extend_split_read p.inner [] h hlen
  · exact share_empty_capacity p.inner h hlen

/-- Witness for C6 at a concrete input. -/
theorem share_empty_witness :
    ((BytesPool.with_capacity 3).share_bytes []).1.len = 0 ∧
      readBytes ((BytesPool.with_capacity 3).share_bytes []).2.inner
        ((BytesPool.with_capacity 3).share_bytes []).1 = [] ∧
      ((BytesPool.with_capacity 3).share_bytes []).2.capacity =
        (BytesPool.with_capacity 3).capacity :=
  share_empty (BytesPool.with_capacity 3) (by decide) (by decide)

/-- C7: `share_str s` delegates to `share_bytes` on the UTF-8 bytes of `s`:
its pool effect is identical, its handle wraps exactly the view that
`share_bytes` would return (`ByteString.from_bytes_unchecked`, no UTF-8
validation scan), and the string view's underlying bytes read back as the
UTF-8 encoding of `s`. -/
theorem share_str_refines (p : BytesPool) (s : String) :
    (p.share_str s).2 = (p.share_bytes (utf8Bytes s)).2 ∧
      (p.share_str s).1 =
        ByteString.from_bytes_unchecked (p.share_bytes (utf8Bytes s)).1 ∧
      (PoolInv p.inner → p.inner.len = 0 →
        readBytes (p.share_str s).2.inner (p.share_str s).1.toBytes =
          utf8Bytes s) := by
  refine ⟨rfl, rfl, ?_⟩
  intro h hlen
  exact extend_split_read p.inner (utf8Bytes s) h hlen

/-- Witness for C7 at a concrete input. -/
theorem share_str_refines_witness :
    readBytes ((BytesPool.with_capacity 8).share_str "hi").2.inner
      ((BytesPool.with_capacity 8).share_str "hi").1.toBytes = utf8Bytes "hi" :=
  (share_str_refines (BytesPool.with_capacity 8) "hi").2.2 (by decide) (by decide)

/-- C8: the bytes observed through a detached, still-live view are fixed at
its creation: no subsequent sequence of pool operations (appends, detaches,
reserves, reclaim attempts, or drops of other views) changes them. -/
theorem view_immutable (ops : List Op) (p : BytesPool) (v : Bytes)
    (h : PoolInv p.inner) (hv : v ∈ p.inner.live)
    (hops : ∀ u : Bytes, Op.dropViewOp u ∈ ops → u ≠ v) :
    readBytes (steps ops p).inner v = readBytes p.inner v :=
  read_steps ops p v h hv hops

/-- Witness for C8 at a concrete input. -/
theorem view_immutable_witness :
    readBytes (steps [Op.shareBytes [3], Op.tryReclaimOp 9, Op.reserveOp 50,
        Op.dropViewOp ⟨0, 2, 1⟩]
      ((BytesPool.with_capacity 8).share_bytes [1, 2]).2).inner
      ((BytesPool.with_capacity 8).share_bytes [1, 2]).1 =
    readBytes ((BytesPool.with_capacity 8).share_bytes [1, 2]).2.inner
      ((BytesPool.with_capacity 8).share_bytes [1, 2]).1 :=
  view_immutable _ _ _ (by decide) (by decide)
    (by intro u hu; simp at hu; subst hu; decide)

/-- C9: the public operations are total over their whole input domain: every
sequence of them yields a well-formed pool state (the model has no partial
or panicking case; its arithmetic is over `Nat`, matching the spec's
exclusion of overflow from the valid domain), and `try_reclaim` signals its
only failure mode through its boolean result, leaving the pool unchanged. -/
theorem operations_total (p : BytesPool) (h : PoolInv p.inner) :
    (∀ ops : List Op, PoolInv (steps ops p).inner) ∧
      ∀ n : Nat, (p.try_reclaim n).1 = true ∨
        ((p.try_reclaim n).1 = false ∧ (p.try_reclaim n).2 = p) := by
  constructor
  · intro ops
    exact inv_steps ops p h
  · intro n
    cases hb : (p.inner.try_reclaim n).1 with
    | true => exact Or.inl hb
    | false =>
      refine Or.inr ⟨hb, ?_⟩
      show ({ inner := (p.inner.try_reclaim n).2 } : BytesPool) = p
      rw [try_reclaim_false_id p.inner n hb]

/-- Witness for C9 at a concrete input. -/
theorem operations_total_witness :
    PoolInv (steps [Op.shareBytes [1], Op.tryReclaimOp 5]
      (BytesPool.with_capacity 2)).inner :=
  (operations_total (BytesPool.with_capacity 2) (by decide)).1 _

/-- C10: after every sequence of public operations the staging buffer is
empty (`share_bytes` always splits off the entire buffer contents), so no
bytes are ever left staged between calls, and any two reachable pools have
equal staged content — which is what the derived `PartialEq` on `BytesPool`
compares. -/
theorem staging_always_empty (p : BytesPool) (h : Reachable p) :
    p.inner.len = 0 ∧ p.inner.staged = [] ∧
      ∀ q : BytesPool, Reachable q → p.inner.staged = q.inner.staged := by
  have hlen := reachable_len p h
  have hstaged : p.inner.staged = [] := by
    unfold BytesMut.staged
    rw [hlen]
    exact byteSlice_zero _ _
  refine ⟨hlen, hstaged, ?_⟩
  intro q hq
  have hq0 : q.inner.staged = [] := by
    unfold BytesMut.staged
    rw [reachable_len q hq]
    exact byteSlice_zero _ _
  rw [hstaged, hq0]

/-- Witness for C10 at concrete reachable pools. -/
theorem staging_always_empty_witness :
    BytesPool.new.inner.len = 0 ∧ BytesPool.new.inner.staged = [] ∧
      BytesPool.new.inner.staged = (BytesPool.with_capacity 5).inner.staged :=
  ⟨(staging_always_empty BytesPool.new Reachable.new).1,
   (staging_always_empty BytesPool.new Reachable.new).2.1,
   (staging_always_empty BytesPool.new Reachable.new).2.2 _ (Reachable.withCap 5)⟩
